import Mathlib

/-!
Verification of the dynamic-array (vector) library in `vector.c` / `vector.h`.

The C `vector` struct holds a type-erased backing store `inner` of
`capacity * elem_size` bytes, a logical length `len` and the fixed byte
size `elem_size` of one element.  We embed the backing store as a list of
bytes (`List Nat`), and all `size_t` arithmetic is carried out modulo
`2 ^ 64`.  Allocation primitives (`malloc`, `calloc`, `reallocarray`) may
fail nondeterministically; each operation that allocates takes an extra
`allocOk : Bool` oracle telling whether the allocator can provide memory
on that call.  `reallocarray` and `calloc` additionally fail on their own
when the requested `count * size` product overflows `size_t`, independent
of the oracle.

Functions that in C mutate the vector through a pointer and return a
status are embedded as functions returning the new vector state together
with the status; returning the unchanged state together with a failure
status is the embedding of "returns false without touching the struct".
Functions that abort the process (`vec_validate_idx` on a NULL handle or
an out-of-bounds index, `assert`) are embedded with `Option`: a `none`
result means the process aborted and no value was ever returned.
-/

namespace Vec

/-- Modulus of the 64-bit `size_t` type used for all sizes in `vector.c`,
that is `2 ^ 64`, written as a literal. -/
def USZ : Nat := 18446744073709551616

/-- The `vector` struct of `vector.h`: `inner` is the backing store viewed
as raw bytes, `capacity` the number of slots allocated, `len` the number of
slots in use, `elem_size` the byte size of one slot. -/
structure vector where
  inner : List Nat
  capacity : Nat
  len : Nat
  elem_size : Nat
deriving Repr, DecidableEq

/-- The `VEC_ADDR_OF` macro: byte offset of slot `index` inside `inner`. -/
def VEC_ADDR_OF (vec : vector) (index : Nat) : Nat :=
  index * vec.elem_size

/-- The embedding of `memmove`/`memcpy` into a byte list: overwrite the bytes of `l` starting
at offset `off` with the bytes `bs`. -/
def writeBytes (l : List Nat) (off : Nat) (bs : List Nat) : List Nat :=
  l.take off ++ bs ++ l.drop (off + bs.length)

/-- The `elem_size` bytes stored in slot `index`. -/
def readSlot (vec : vector) (index : Nat) : List Nat :=
  (vec.inner.drop (VEC_ADDR_OF vec index)).take vec.elem_size

/-- The function `vec_init`: allocates the struct with `malloc` and the backing store
with `calloc(init_capacity, sizeof_type)`, zero-initialized, `len = 0`.
Returns `NULL` (here `none`) if either allocation fails; `calloc` also
fails when `init_capacity * sizeof_type` overflows `size_t`.  The single
oracle `allocOk` covers both allocations. -/
def vec_init (init_capacity sizeof_type : Nat) (allocOk : Bool) :
    Option vector :=
  if allocOk = true ∧ init_capacity * sizeof_type < USZ then
    some { inner := List.replicate (init_capacity * sizeof_type) 0,
           capacity := init_capacity, len := 0, elem_size := sizeof_type }
  else none

/-- The function `vec_validate_idx`: returns `true` when the check passes and the
function returns normally; `false` means the process aborts, which happens
exactly when the handle is NULL (`none`) or `index >= len`. -/
def vec_validate_idx (vec : Option vector) (index : Nat) : Bool :=
  match vec with
  | none => false
  | some v => decide (index < v.len)

/-- The function `vec_resize`: the call `reallocarray(inner, num_elements, elem_size)` fails when
the byte-size product overflows `size_t` or when the allocator fails
(oracle `allocOk`); then the function returns `false` with the vector
untouched.  On success the first `min old new` bytes are preserved (the
fresh tail bytes are unspecified; modelled as `0`), `capacity` becomes
`num_elements` and `len` is truncated to `capacity` when needed. -/
def vec_resize (vec : vector) (num_elements : Nat) (allocOk : Bool) :
    vector × Bool :=
  if allocOk = true ∧ num_elements * vec.elem_size < USZ then
    ({ vec with
        inner := vec.inner.take (num_elements * vec.elem_size) ++
          List.replicate (num_elements * vec.elem_size - vec.inner.length) 0,
        capacity := num_elements,
        len := min vec.len num_elements }, true)
  else (vec, false)

/-- The function `vec_grow`: computes `new_capacity = (capacity * 3) / 2` in `size_t`
arithmetic, fails (returning `false`, vector untouched) unless this
strictly increases the capacity, and otherwise delegates to `vec_resize`. -/
def vec_grow (vec : vector) (allocOk : Bool) : vector × Bool :=
  let new_capacity := vec.capacity * 3 % USZ / 2
  if new_capacity ≤ vec.capacity then (vec, false)
  else vec_resize vec new_capacity allocOk

/-- The unconditional tail of `vec_push`: `memmove` the `elem_size` bytes
of `element` into slot `len`, increment `len`, return a pointer to the
stored slot (embedded as the slot index). -/
def pushUnchecked (vec : vector) (element : List Nat) :
    vector × Option Nat :=
  ({ vec with
      inner := writeBytes vec.inner (VEC_ADDR_OF vec vec.len) element,
      len := (vec.len + 1) % USZ }, some vec.len)

/-- The function `vec_push`: if `len >= capacity`, first attempts `vec_grow`; a failed
growth makes push return `NULL` with the vector untouched.  Otherwise the
element bytes are copied into slot `len` and `len` is incremented.
`element` stands for the `elem_size` bytes `memmove` reads from the
caller's pointer. -/
def vec_push (vec : vector) (element : List Nat) (allocOk : Bool) :
    vector × Option Nat :=
  if vec.len ≥ vec.capacity then
    let g := vec_grow vec allocOk
    if g.2 = false then (g.1, none)
    else pushUnchecked g.1 element
  else pushUnchecked vec element

/-- The function `vec_pop`: returns `NULL` on an empty vector; otherwise `malloc`s an
`elem_size`-byte copy of the last slot (oracle `allocOk`), and only when
that allocation succeeded decrements `len` and returns the copy. -/
def vec_pop (vec : vector) (allocOk : Bool) :
    vector × Option (List Nat) :=
  if vec.len = 0 then (vec, none)
  else if allocOk = false then (vec, none)
  else ({ vec with len := vec.len - 1 }, some (readSlot vec (vec.len - 1)))

/-- The function `vec_get`: validates the index (aborting — `none` — on a NULL handle
or an out-of-bounds index) and returns a direct pointer to the slot,
embedded as the slot's bytes. -/
def vec_get (vec : Option vector) (index : Nat) : Option (List Nat) :=
  if vec_validate_idx vec index = true then
    vec.map (fun v => readSlot v index)
  else none

/-- The body of `vec_remove` after `vec_validate_idx` has passed: unless
the removed slot is the last one, `memmove` the `(len - 1 - index) *
elem_size` bytes of the following slots one slot to the left; then
decrement `len`. -/
def removeUnchecked (vec : vector) (index : Nat) : vector :=
  let vec' :=
    if index ≠ vec.len - 1 then
      { vec with
          inner := writeBytes vec.inner (VEC_ADDR_OF vec index)
            ((vec.inner.drop (VEC_ADDR_OF vec (index + 1))).take
              ((vec.len - 1 - index) * vec.elem_size % USZ)) }
    else vec
  { vec' with len := vec'.len - 1 }

/-- The function `vec_remove`: validates the index (`none` = the process aborted),
then removes slot `index` keeping the order of the remaining elements. -/
def vec_remove (vec : Option vector) (index : Nat) : Option vector :=
  if vec_validate_idx vec index = true then
    vec.map (fun v => removeUnchecked v index)
  else none

/-- The body of `vec_swap_remove` after validation: if at least two
elements remain, `memmove` the last slot's bytes over slot `index`; then
decrement `len`. -/
def swapRemoveUnchecked (vec : vector) (index : Nat) : vector :=
  let vec' :=
    if vec.len ≥ 2 then
      { vec with
          inner := writeBytes vec.inner (VEC_ADDR_OF vec index)
            (readSlot vec (vec.len - 1)) }
    else vec
  { vec' with len := vec'.len - 1 }

/-- The function `vec_swap_remove`: validates the index (`none` = the process aborted),
then removes slot `index` by overwriting it with the last slot. -/
def vec_swap_remove (vec : Option vector) (index : Nat) : Option vector :=
  if vec_validate_idx vec index = true then
    vec.map (fun v => swapRemoveUnchecked v index)
  else none

/-- The function `vec_clear`: sets `len = 0`, leaving the backing store alone. -/
def vec_clear (vec : vector) : vector :=
  { vec with len := 0 }

/-- The function `vec_leak`: hands the backing store (all `capacity` slots of it) to
the caller and frees the struct; embedded as returning the raw bytes. -/
def vec_leak (vec : vector) : List Nat :=
  vec.inner

/-- The function `vec_to_str`: resizes the vector to `len + 1` slots (the return value
of `vec_resize` is ignored by the C code), leaks the backing store and
writes a terminating zero byte at index `len`.  Returns the leaked bytes. -/
def vec_to_str (vec : vector) (allocOk : Bool) : List Nat :=
  let len := (vec.len + 1) % USZ
  let r := vec_resize vec len allocOk
  let str := vec_leak r.1
  writeBytes str (len - 1) [0]

/-- The function `vec_clone_str`: the statement `assert(vec != NULL)` aborts on a NULL handle (outer
`none`: no value is returned).  Otherwise `malloc`s `len + 1` bytes
(`some none` when the allocation fails), copies the vector's `len` bytes
and appends a terminating zero byte, without touching the source vector. -/
def vec_clone_str (vec : Option vector) (allocOk : Bool) :
    Option (Option (List Nat)) :=
  match vec with
  | none => none
  | some v =>
      if allocOk = false then some none
      else some (some (v.inner.take v.len ++ [0]))

/-- One mutating call on a vector, for reasoning about arbitrary call
sequences. -/
inductive op where
  | grow (allocOk : Bool)
  | resize (num_elements : Nat) (allocOk : Bool)
  | push (element : List Nat) (allocOk : Bool)
  | pop (allocOk : Bool)
  | remove (index : Nat)
  | swap_remove (index : Nat)
  | clear

/-- The vector state after one call.  A call that fails returns without
mutating the struct, and after an aborting call no state exists at all, so
both are the unchanged state. -/
def applyOp (v : vector) (o : op) : vector :=
  match o with
  | .grow ok => (vec_grow v ok).1
  | .resize n ok => (vec_resize v n ok).1
  | .push e ok => (vec_push v e ok).1
  | .pop ok => (vec_pop v ok).1
  | .remove i => (vec_remove (some v) i).getD v
  | .swap_remove i => (vec_swap_remove (some v) i).getD v
  | .clear => vec_clear v

/-! ## Helper lemmas about byte lists -/

theorem length_writeBytes (l bs : List Nat) (off : Nat)
    (h : off + bs.length ≤ l.length) :
    (writeBytes l off bs).length = l.length := by
  simp only [writeBytes, List.length_append, List.length_take,
    List.length_drop]
  omega

theorem getElem?_writeBytes (l bs : List Nat) (off i : Nat)
    (h : off + bs.length ≤ l.length) :
    (writeBytes l off bs)[i]? =
      if i < off then l[i]?
      else if i < off + bs.length then bs[i - off]?
      else l[i]? := by
  have hto : (l.take off).length = off := by
    simp only [List.length_take]
    omega
  unfold writeBytes
  rw [List.append_assoc]
  by_cases h1 : i < off
  · rw [List.getElem?_append_left (by omega : i < (l.take off).length),
      List.getElem?_take, if_pos h1, if_pos h1]
  · rw [List.getElem?_append_right (by omega : (l.take off).length ≤ i), hto]
    by_cases h2 : i < off + bs.length
    · rw [List.getElem?_append_left (by omega : i - off < bs.length),
        if_neg h1, if_pos h2]
    · rw [List.getElem?_append_right (by omega : bs.length ≤ i - off),
        List.getElem?_drop, if_neg h1, if_neg h2]
      congr 1
      omega

theorem getElem?_readSlot (v : vector) (i b : Nat) :
    (readSlot v i)[b]? =
      if b < v.elem_size then v.inner[i * v.elem_size + b]? else none := by
  unfold readSlot VEC_ADDR_OF
  rw [List.getElem?_take]
  by_cases hb : b < v.elem_size
  · rw [if_pos hb, if_pos hb, List.getElem?_drop]
  · rw [if_neg hb, if_neg hb]

theorem readSlot_ext_bytes (v v' : vector) (i j : Nat)
    (hes : v'.elem_size = v.elem_size)
    (h : ∀ b, b < v.elem_size →
      v'.inner[i * v.elem_size + b]? = v.inner[j * v.elem_size + b]?) :
    readSlot v' i = readSlot v j := by
  apply List.ext_getElem?
  intro b
  rw [getElem?_readSlot, getElem?_readSlot, hes]
  by_cases hb : b < v.elem_size
  · rw [if_pos hb, if_pos hb, h b hb]
  · rw [if_neg hb, if_neg hb]

theorem readSlot_eq_list (v : vector) (i : Nat) (bs : List Nat)
    (hlen : bs.length = v.elem_size)
    (h : ∀ b, b < v.elem_size → v.inner[i * v.elem_size + b]? = bs[b]?) :
    readSlot v i = bs := by
  apply List.ext_getElem?
  intro b
  rw [getElem?_readSlot]
  by_cases hb : b < v.elem_size
  · rw [if_pos hb, h b hb]
  · rw [if_neg hb]
    exact (List.getElem?_eq_none (by omega)).symm

/-! ## Helper lemmas about `vec_resize` and `vec_grow` -/

theorem vec_resize_success (v : vector) (n : Nat) (allocOk : Bool)
    (hok : allocOk = true) (hov : n * v.elem_size < USZ) :
    vec_resize v n allocOk =
      ({ v with
          inner := v.inner.take (n * v.elem_size) ++
            List.replicate (n * v.elem_size - v.inner.length) 0,
          capacity := n, len := min v.len n }, true) := by
  rw [vec_resize, if_pos ⟨hok, hov⟩]

theorem vec_resize_fail (v : vector) (n : Nat) (allocOk : Bool)
    (h : ¬(allocOk = true ∧ n * v.elem_size < USZ)) :
    vec_resize v n allocOk = (v, false) := by
  rw [vec_resize, if_neg h]

theorem vec_resize_fst_of_snd_false (v : vector) (n : Nat) (allocOk : Bool)
    (h : (vec_resize v n allocOk).2 = false) :
    (vec_resize v n allocOk).1 = v := by
  by_cases hc : allocOk = true ∧ n * v.elem_size < USZ
  · rw [vec_resize_success v n allocOk hc.1 hc.2] at h
    exact absurd h (by simp)
  · rw [vec_resize_fail v n allocOk hc]

theorem length_inner_resize (v : vector) (n : Nat) (allocOk : Bool)
    (hok : allocOk = true) (hov : n * v.elem_size < USZ) :
    (vec_resize v n allocOk).1.inner.length = n * v.elem_size := by
  rw [vec_resize_success v n allocOk hok hov]
  simp only [List.length_append, List.length_take, List.length_replicate]
  omega

theorem getElem?_inner_resize (v : vector) (n : Nat) (allocOk : Bool)
    (hok : allocOk = true) (hov : n * v.elem_size < USZ) (i : Nat)
    (hi : i < n * v.elem_size) (hil : i < v.inner.length) :
    (vec_resize v n allocOk).1.inner[i]? = v.inner[i]? := by
  rw [vec_resize_success v n allocOk hok hov]
  show (v.inner.take (n * v.elem_size) ++ _)[i]? = _
  rw [List.getElem?_append_left (by simp only [List.length_take]; omega),
    List.getElem?_take, if_pos hi]

theorem vec_grow_fst_of_snd_false (v : vector) (allocOk : Bool)
    (h : (vec_grow v allocOk).2 = false) :
    (vec_grow v allocOk).1 = v := by
  rw [vec_grow] at *
  by_cases hc : v.capacity * 3 % USZ / 2 ≤ v.capacity
  · rw [if_pos hc]
  · rw [if_neg hc] at h ⊢
    exact vec_resize_fst_of_snd_false _ _ _ h

/-! ## Claim theorems -/

/-- C2: `vec_grow` computes the candidate capacity
`floor(capacity * 3 / 2)` in wrapping `size_t` arithmetic and succeeds in
its capacity check exactly when this strictly increases the capacity,
which happens exactly when `capacity ≥ 2` and `capacity * 3` does not
overflow; when the check fails (capacity `0` or `1`, or overflow) growth
returns failure with the buffer unmodified rather than wrapping; otherwise
it delegates to `vec_resize` with target `floor(capacity * 3 / 2)`, so
every successful growth step strictly increases the capacity to
`floor(capacity * 3 / 2)`. -/
theorem vec_grow_spec (v : vector) (allocOk : Bool)
    (hcap : v.capacity < USZ) :
    (v.capacity < v.capacity * 3 % USZ / 2 ↔
      2 ≤ v.capacity ∧ v.capacity * 3 < USZ) ∧
    (v.capacity * 3 % USZ / 2 ≤ v.capacity →
      vec_grow v allocOk = (v, false)) ∧
    (v.capacity < v.capacity * 3 % USZ / 2 →
      vec_grow v allocOk = vec_resize v (v.capacity * 3 / 2) allocOk) ∧
    (∀ v', vec_grow v allocOk = (v', true) →
      v'.capacity = v.capacity * 3 / 2 ∧ v.capacity < v'.capacity) := by
  have key : v.capacity < v.capacity * 3 % USZ / 2 ↔
      2 ≤ v.capacity ∧ v.capacity * 3 < USZ := by
    unfold USZ at hcap ⊢
    constructor
    · intro hlt
      rcases Nat.lt_or_ge (v.capacity * 3) 18446744073709551616 with h3 | h3
      · rw [Nat.mod_eq_of_lt h3] at hlt
        exact ⟨by omega, h3⟩
      · exfalso
        have hm : v.capacity * 3 % 18446744073709551616 =
              v.capacity * 3 - 18446744073709551616 ∨
            v.capacity * 3 % 18446744073709551616 =
              v.capacity * 3 - 2 * 18446744073709551616 := by
          omega
        rcases hm with hm | hm <;> rw [hm] at hlt <;> clear hm <;> omega
    · rintro ⟨h2, h3⟩
      rw [Nat.mod_eq_of_lt h3]
      omega
  refine ⟨key, ?_, ?_, ?_⟩
  · intro h
    simp only [vec_grow]
    rw [if_pos h]
  · intro h
    have hnov : v.capacity * 3 % USZ = v.capacity * 3 :=
      Nat.mod_eq_of_lt (key.mp h).2
    simp only [vec_grow]
    rw [if_neg (Nat.not_le.mpr h), hnov]
  · intro v' h
    simp only [vec_grow] at h
    by_cases hc : v.capacity * 3 % USZ / 2 ≤ v.capacity
    · rw [if_pos hc] at h
      exact absurd (congrArg Prod.snd h) (by simp)
    · have hlt : v.capacity < v.capacity * 3 % USZ / 2 := Nat.not_le.mp hc
      have hnov : v.capacity * 3 % USZ = v.capacity * 3 :=
        Nat.mod_eq_of_lt (key.mp hlt).2
      rw [if_neg hc, hnov] at h
      rw [hnov] at hlt
      by_cases hr : allocOk = true ∧ v.capacity * 3 / 2 * v.elem_size < USZ
      · rw [vec_resize_success v _ allocOk hr.1 hr.2] at h
        have hv' : v' = { v with
            inner := v.inner.take (v.capacity * 3 / 2 * v.elem_size) ++
              List.replicate (v.capacity * 3 / 2 * v.elem_size -
                v.inner.length) 0,
            capacity := v.capacity * 3 / 2,
            len := min v.len (v.capacity * 3 / 2) } :=
          (Prod.mk.injEq _ _ _ _ ▸ h).1.symm
        rw [hv']
        exact ⟨rfl, hlt⟩
      · rw [vec_resize_fail v _ allocOk hr] at h
        exact absurd (congrArg Prod.snd h) (by simp)

/-- Witness for C2 at capacity 2: the candidate capacity 3 strictly
increases, so growth delegates to resize with target 3. -/
theorem vec_grow_spec_witness :
    vec_grow ⟨[0, 0], 2, 0, 1⟩ true =
      vec_resize ⟨[0, 0], 2, 0, 1⟩ 3 true := by
  have h := (vec_grow_spec ⟨[0, 0], 2, 0, 1⟩ true (by decide)).2.2.1
    (by decide)
  exact h

/-- C3: `vec_resize` fails with the buffer completely unmodified whenever
the reallocation fails, in particular whenever `new_capacity * elem_size`
overflows `size_t` (detected by `reallocarray`, regardless of the
allocator); on success the capacity becomes exactly `new_capacity`, the
length is truncated to `new_capacity` when smaller, and every byte below
the new capacity that existed before is preserved unchanged (so resizing
to a larger capacity preserves all existing element bytes). -/
theorem vec_resize_spec (v : vector) (n : Nat) (allocOk : Bool) :
    (USZ ≤ n * v.elem_size → vec_resize v n allocOk = (v, false)) ∧
    ((vec_resize v n allocOk).2 = false →
      (vec_resize v n allocOk).1 = v) ∧
    (∀ v', vec_resize v n allocOk = (v', true) →
      v'.capacity = n ∧ v'.elem_size = v.elem_size ∧
      v'.len = min v.len n ∧
      v'.inner.length = n * v.elem_size ∧
      (∀ i, i < n * v.elem_size → i < v.inner.length →
        v'.inner[i]? = v.inner[i]?)) := by
  refine ⟨?_, vec_resize_fst_of_snd_false v n allocOk, ?_⟩
  · intro h
    exact vec_resize_fail v n allocOk (by omega)
  · intro v' h
    by_cases hc : allocOk = true ∧ n * v.elem_size < USZ
    · have h1 := length_inner_resize v n allocOk hc.1 hc.2
      have h2 := fun i hi hil =>
        getElem?_inner_resize v n allocOk hc.1 hc.2 i hi hil
      rw [vec_resize_success v n allocOk hc.1 hc.2] at h h1 h2
      have hv' := (Prod.mk.injEq _ _ _ _ ▸ h).1.symm
      rw [hv']
      exact ⟨rfl, rfl, rfl, h1, h2⟩
    · rw [vec_resize_fail v n allocOk hc] at h
      exact absurd (congrArg Prod.snd h) (by simp)

/-- Witness for C3: a successful resize of a two-slot buffer down to one
slot truncates the length to 1 and keeps the surviving bytes. -/
theorem vec_resize_spec_witness :
    (vec_resize ⟨[7, 8], 2, 2, 1⟩ 1 true).1.len = min 2 1 ∧
      (vec_resize ⟨[7, 8], 2, 2, 1⟩ 1 true).1.inner[0]? = some 7 := by
  have h := (vec_resize_spec ⟨[7, 8], 2, 2, 1⟩ 1 true).2.2
    (vec_resize ⟨[7, 8], 2, 2, 1⟩ 1 true).1 (by decide)
  refine ⟨h.2.2.1, ?_⟩
  rw [h.2.2.2.2 0 (by decide) (by decide)]
  rfl

/-! ## Field-preservation helpers -/

theorem vec_resize_fst_len_le (v : vector) (n : Nat) (allocOk : Bool)
    (h : v.len ≤ v.capacity) :
    (vec_resize v n allocOk).1.len ≤ (vec_resize v n allocOk).1.capacity := by
  by_cases hc : allocOk = true ∧ n * v.elem_size < USZ
  · rw [vec_resize_success v n allocOk hc.1 hc.2]
    exact min_le_right _ _
  · rw [vec_resize_fail v n allocOk hc]
    exact h

theorem vec_grow_fst_len_le (v : vector) (allocOk : Bool)
    (h : v.len ≤ v.capacity) :
    (vec_grow v allocOk).1.len ≤ (vec_grow v allocOk).1.capacity := by
  simp only [vec_grow]
  by_cases hc : v.capacity * 3 % USZ / 2 ≤ v.capacity
  · rw [if_pos hc]
    exact h
  · rw [if_neg hc]
    exact vec_resize_fst_len_le v _ allocOk h

theorem vec_grow_success (v : vector) (allocOk : Bool)
    (hs : (vec_grow v allocOk).2 = true) :
    v.capacity < (vec_grow v allocOk).1.capacity ∧
    (vec_grow v allocOk).1.len = min v.len (vec_grow v allocOk).1.capacity ∧
    (vec_grow v allocOk).1.elem_size = v.elem_size ∧
    (vec_grow v allocOk).1.inner.length =
      (vec_grow v allocOk).1.capacity * v.elem_size ∧
    (vec_grow v allocOk).1.capacity < USZ := by
  have husz : v.capacity * 3 % USZ / 2 < USZ :=
    lt_of_le_of_lt (Nat.div_le_self _ _)
      (Nat.mod_lt _ (by unfold USZ; omega))
  simp only [vec_grow] at hs ⊢
  by_cases hc : v.capacity * 3 % USZ / 2 ≤ v.capacity
  · rw [if_pos hc] at hs
    exact absurd hs (by simp)
  · rw [if_neg hc] at hs ⊢
    by_cases hr : allocOk = true ∧
        v.capacity * 3 % USZ / 2 * v.elem_size < USZ
    · have hl := length_inner_resize v (v.capacity * 3 % USZ / 2) allocOk
        hr.1 hr.2
      rw [vec_resize_success v _ allocOk hr.1 hr.2] at hl ⊢
      exact ⟨Nat.not_le.mp hc, rfl, rfl, hl, husz⟩
    · rw [vec_resize_fail v _ allocOk hr] at hs
      exact absurd hs (by simp)

theorem getElem?_inner_grow (v : vector) (allocOk : Bool)
    (hs : (vec_grow v allocOk).2 = true)
    (hlen : v.inner.length = v.capacity * v.elem_size) (i : Nat)
    (hi : i < v.inner.length) :
    (vec_grow v allocOk).1.inner[i]? = v.inner[i]? := by
  simp only [vec_grow] at hs ⊢
  by_cases hc : v.capacity * 3 % USZ / 2 ≤ v.capacity
  · rw [if_pos hc] at hs
    exact absurd hs (by simp)
  · have hle : v.capacity ≤ v.capacity * 3 % USZ / 2 :=
      Nat.le_of_lt (Nat.not_le.mp hc)
    have hmul : v.capacity * v.elem_size ≤
        v.capacity * 3 % USZ / 2 * v.elem_size :=
      Nat.mul_le_mul_right _ hle
    rw [if_neg hc] at hs ⊢
    by_cases hr : allocOk = true ∧
        v.capacity * 3 % USZ / 2 * v.elem_size < USZ
    · exact getElem?_inner_resize v _ allocOk hr.1 hr.2 i
        (by rw [hlen] at hi; exact lt_of_lt_of_le hi hmul) hi
    · rw [vec_resize_fail v _ allocOk hr] at hs
      exact absurd hs (by simp)

theorem readSlot_grow (v : vector) (allocOk : Bool)
    (hs : (vec_grow v allocOk).2 = true)
    (hlc : v.len ≤ v.capacity)
    (hlen : v.inner.length = v.capacity * v.elem_size)
    (i : Nat) (hi : i < v.len) :
    readSlot (vec_grow v allocOk).1 i = readSlot v i := by
  apply readSlot_ext_bytes v _ i i (vec_grow_success v allocOk hs).2.2.1
  intro b hb
  apply getElem?_inner_grow v allocOk hs hlen
  have h2 : (i + 1) * v.elem_size ≤ v.len * v.elem_size :=
    Nat.mul_le_mul_right _ hi
  have h3 : v.len * v.elem_size ≤ v.capacity * v.elem_size :=
    Nat.mul_le_mul_right _ hlc
  rw [Nat.succ_mul] at h2
  rw [hlen]
  omega

theorem removeUnchecked_fields (v : vector) (i : Nat) :
    (removeUnchecked v i).len = v.len - 1 ∧
    (removeUnchecked v i).capacity = v.capacity ∧
    (removeUnchecked v i).elem_size = v.elem_size := by
  simp only [removeUnchecked]
  split <;> exact ⟨rfl, rfl, rfl⟩

theorem swapRemoveUnchecked_fields (v : vector) (i : Nat) :
    (swapRemoveUnchecked v i).len = v.len - 1 ∧
    (swapRemoveUnchecked v i).capacity = v.capacity ∧
    (swapRemoveUnchecked v i).elem_size = v.elem_size := by
  simp only [swapRemoveUnchecked]
  split <;> exact ⟨rfl, rfl, rfl⟩

/-- One call of any mutating operation keeps `len ≤ capacity`. -/
theorem applyOp_preserves (v : vector) (o : op) (h : v.len ≤ v.capacity) :
    (applyOp v o).len ≤ (applyOp v o).capacity := by
  cases o with
  | grow ok =>
    exact vec_grow_fst_len_le v ok h
  | resize n ok =>
    exact vec_resize_fst_len_le v n ok h
  | push e ok =>
    simp only [applyOp, vec_push]
    by_cases hge : v.len ≥ v.capacity
    · rw [if_pos hge]
      by_cases hg : (vec_grow v ok).2 = false
      · rw [if_pos hg]
        exact vec_grow_fst_len_le v ok h
      · rw [if_neg hg]
        have h2 := vec_grow_success v ok (by simpa using hg)
        show ((vec_grow v ok).1.len + 1) % USZ ≤ (vec_grow v ok).1.capacity
        have h3 : (vec_grow v ok).1.len + 1 ≤ (vec_grow v ok).1.capacity := by
          omega
        exact le_trans (Nat.mod_le _ _) h3
    · rw [if_neg hge]
      show (v.len + 1) % USZ ≤ v.capacity
      exact le_trans (Nat.mod_le _ _) (by omega)
  | pop ok =>
    simp only [applyOp, vec_pop]
    split
    · exact h
    · split
      · exact h
      · show v.len - 1 ≤ v.capacity
        omega
  | remove i =>
    simp only [applyOp, vec_remove]
    by_cases hv : vec_validate_idx (some v) i = true
    · rw [if_pos hv]
      have hf := removeUnchecked_fields v i
      show (removeUnchecked v i).len ≤ (removeUnchecked v i).capacity
      omega
    · rw [if_neg hv]
      exact h
  | swap_remove i =>
    simp only [applyOp, vec_swap_remove]
    by_cases hv : vec_validate_idx (some v) i = true
    · rw [if_pos hv]
      have hf := swapRemoveUnchecked_fields v i
      show (swapRemoveUnchecked v i).len ≤ (swapRemoveUnchecked v i).capacity
      omega
    · rw [if_neg hv]
      exact h
  | clear =>
    exact Nat.zero_le _

theorem foldl_applyOp_preserves (ops : List op) (v : vector)
    (h : v.len ≤ v.capacity) :
    (ops.foldl applyOp v).len ≤ (ops.foldl applyOp v).capacity := by
  induction ops generalizing v with
  | nil => exact h
  | cons o os ih => exact ih (applyOp v o) (applyOp_preserves v o h)

/-- C4: a buffer produced by `vec_init` satisfies `len ≤ capacity`, and
every sequence of `vec_grow`, `vec_resize`, `vec_push`, `vec_pop`,
`vec_remove`, `vec_swap_remove` and `vec_clear` calls preserves the
invariant, so it holds after every operation. -/
theorem vec_invariant (init_capacity sizeof_type : Nat) (allocOk : Bool)
    (v0 : vector)
    (h : vec_init init_capacity sizeof_type allocOk = some v0)
    (ops : List op) :
    (ops.foldl applyOp v0).len ≤ (ops.foldl applyOp v0).capacity := by
  have h0 : v0.len ≤ v0.capacity := by
    unfold vec_init at h
    split at h
    · cases h
      exact Nat.zero_le _
    · cases h
  exact foldl_applyOp_preserves ops v0 h0

/-- Witness for C4: a freshly allocated two-slot byte buffer keeps the
invariant through a push, a failing growth, a pop and a clear. -/
theorem vec_invariant_witness :
    (([op.push [5] true, op.grow false, op.pop true,
        op.clear]).foldl applyOp ⟨[0, 0], 2, 0, 1⟩).len ≤
      (([op.push [5] true, op.grow false, op.pop true,
        op.clear]).foldl applyOp ⟨[0, 0], 2, 0, 1⟩).capacity :=
  vec_invariant 2 1 true ⟨[0, 0], 2, 0, 1⟩ (by decide)
    [op.push [5] true, op.grow false, op.pop true, op.clear]

theorem pushUnchecked_spec (w : vector) (element : List Nat)
    (hlt : w.len < w.capacity)
    (hlen : w.inner.length = w.capacity * w.elem_size)
    (hcap : w.capacity < USZ)
    (helem : element.length = w.elem_size) :
    (pushUnchecked w element).2 = some w.len ∧
    (pushUnchecked w element).1.len = w.len + 1 ∧
    (pushUnchecked w element).1.elem_size = w.elem_size ∧
    (pushUnchecked w element).1.capacity = w.capacity ∧
    readSlot (pushUnchecked w element).1 w.len = element ∧
    (∀ i, i < w.len →
      readSlot (pushUnchecked w element).1 i = readSlot w i) := by
  have h1 : (w.len + 1) * w.elem_size ≤ w.capacity * w.elem_size :=
    Nat.mul_le_mul_right _ hlt
  rw [Nat.succ_mul] at h1
  have hoff : w.len * w.elem_size + element.length ≤ w.inner.length := by
    rw [helem, hlen]
    exact h1
  refine ⟨rfl, ?_, rfl, rfl, ?_, ?_⟩
  · show (w.len + 1) % USZ = w.len + 1
    exact Nat.mod_eq_of_lt (by omega)
  · refine readSlot_eq_list (pushUnchecked w element).1 w.len element
      helem ?_
    intro b hb
    have hb2 : b < w.elem_size := hb
    show (writeBytes w.inner (w.len * w.elem_size) element)[
      w.len * w.elem_size + b]? = element[b]?
    rw [getElem?_writeBytes _ _ _ _ hoff,
      if_neg (by omega), if_pos (by omega),
      Nat.add_sub_cancel_left]
  · intro i hi
    refine readSlot_ext_bytes w (pushUnchecked w element).1 i i rfl ?_
    intro b hb
    have hb2 : b < w.elem_size := hb
    show (writeBytes w.inner (w.len * w.elem_size) element)[
      i * w.elem_size + b]? = w.inner[i * w.elem_size + b]?
    have h2 : (i + 1) * w.elem_size ≤ w.len * w.elem_size :=
      Nat.mul_le_mul_right _ hi
    rw [Nat.succ_mul] at h2
    rw [getElem?_writeBytes _ _ _ _ hoff, if_pos (by omega)]

theorem vec_push_success (v : vector) (element : List Nat)
    (allocOk : Bool)
    (hlc : v.len ≤ v.capacity) (hcap : v.capacity < USZ)
    (hlen : v.inner.length = v.capacity * v.elem_size)
    (helem : element.length = v.elem_size) (v' : vector) (r : Nat)
    (h : vec_push v element allocOk = (v', some r)) :
    r = v.len ∧ v'.len = v.len + 1 ∧ v'.elem_size = v.elem_size ∧
    readSlot v' v.len = element ∧
    (∀ i, i < v.len → readSlot v' i = readSlot v i) := by
  simp only [vec_push] at h
  by_cases hge : v.len ≥ v.capacity
  · rw [if_pos hge] at h
    by_cases hgf : (vec_grow v allocOk).2 = false
    · rw [if_pos hgf] at h
      exact absurd (congrArg Prod.snd h) (by simp)
    · rw [if_neg hgf] at h
      have hgs : (vec_grow v allocOk).2 = true := by simpa using hgf
      have hgrow := vec_grow_success v allocOk hgs
      have hglen : (vec_grow v allocOk).1.len = v.len := by omega
      have hp := pushUnchecked_spec (vec_grow v allocOk).1 element
        (by omega) (hgrow.2.2.1 ▸ hgrow.2.2.2.1)
        hgrow.2.2.2.2 (hgrow.2.2.1 ▸ helem)
      have hv' : v' = (pushUnchecked (vec_grow v allocOk).1 element).1 :=
        ((Prod.mk.injEq _ _ _ _ ▸ h).1).symm
      have hr : r = v.len := by
        have h2 := (Prod.mk.injEq _ _ _ _ ▸ h).2
        injection h2 with h3
        rw [← h3, hglen]
      subst hv'
      refine ⟨hr, ?_, ?_, ?_, ?_⟩
      · rw [hp.2.1, hglen]
      · rw [hp.2.2.1, hgrow.2.2.1]
      · rw [← hglen]
        exact hp.2.2.2.2.1
      · intro i hi
        rw [hp.2.2.2.2.2 i (by omega)]
        exact readSlot_grow v allocOk hgs hlc hlen i hi
  · rw [if_neg hge] at h
    have hp := pushUnchecked_spec v element (Nat.not_le.mp hge)
      hlen hcap helem
    have hv' : v' = (pushUnchecked v element).1 :=
      ((Prod.mk.injEq _ _ _ _ ▸ h).1).symm
    have hr : r = v.len := by
      have h2 := (Prod.mk.injEq _ _ _ _ ▸ h).2
      injection h2 with h3
      exact h3.symm
    subst hv'
    exact ⟨hr, hp.2.1, hp.2.2.1, hp.2.2.2.2.1, hp.2.2.2.2.2⟩

/-- C1: when `len` has reached `capacity`, `vec_push` first attempts
growth; a failed growth makes push return `NULL` with the buffer
unmodified, and this is the only way push can fail.  On success push
stores exactly the `elem_size` element bytes into slot `len` leaving the
slots `0 .. len - 1` unchanged, increments `len` by exactly one, and
returns a reference to the newly stored slot. -/
theorem vec_push_spec (v : vector) (element : List Nat) (allocOk : Bool)
    (hlc : v.len ≤ v.capacity) (hcap : v.capacity < USZ)
    (hlen : v.inner.length = v.capacity * v.elem_size)
    (helem : element.length = v.elem_size) :
    (v.len = v.capacity → (vec_grow v allocOk).2 = false →
      vec_push v element allocOk = (v, none)) ∧
    ((vec_push v element allocOk).2 = none →
      v.len = v.capacity ∧ (vec_grow v allocOk).2 = false) ∧
    (∀ v' r, vec_push v element allocOk = (v', some r) →
      r = v.len ∧ v'.len = v.len + 1 ∧ v'.elem_size = v.elem_size ∧
      readSlot v' v.len = element ∧
      (∀ i, i < v.len → readSlot v' i = readSlot v i)) := by
  refine ⟨?_, ?_, ?_⟩
  · intro heq hgf
    simp only [vec_push]
    rw [if_pos heq.ge, if_pos hgf, vec_grow_fst_of_snd_false v allocOk hgf]
  · intro h
    simp only [vec_push] at h
    by_cases hge : v.len ≥ v.capacity
    · rw [if_pos hge] at h
      by_cases hgf : (vec_grow v allocOk).2 = false
      · exact ⟨Nat.le_antisymm hlc hge, hgf⟩
      · rw [if_neg hgf] at h
        exact absurd h (by simp [pushUnchecked])
    · rw [if_neg hge] at h
      exact absurd h (by simp [pushUnchecked])
  · exact fun v' r h =>
      vec_push_success v element allocOk hlc hcap hlen helem v' r h

/-- Witness for C1: pushing the byte `9` onto a full one-byte buffer of
capacity 2 stores it in slot 1 and bumps the length to 2. -/
theorem vec_push_spec_witness :
    vec_push ⟨[7, 0], 2, 1, 1⟩ [9] true =
      (⟨[7, 9], 2, 2, 1⟩, some 1) ∧
    readSlot (vec_push ⟨[7, 0], 2, 1, 1⟩ [9] true).1 1 = [9] := by
  have h := (vec_push_spec ⟨[7, 0], 2, 1, 1⟩ [9] true (by decide)
    (by decide) (by decide) (by decide)).2.2
    (vec_push ⟨[7, 0], 2, 1, 1⟩ [9] true).1 1 (by decide)
  exact ⟨by decide, h.2.2.2.1⟩

/-- C5: each indexing operation (`vec_get`, `vec_remove`,
`vec_swap_remove`) aborts the process, never returning a value, exactly
when the handle is NULL or the index is at least `len` (in particular at
`index = len`); with a valid handle and `index < len` the bounds check
passes and the operation returns normally. -/
theorem indexing_abort_iff (vec : Option vector) (index : Nat) :
    (vec_get vec index = none ↔
      vec = none ∨ ∃ v, vec = some v ∧ v.len ≤ index) ∧
    (vec_remove vec index = none ↔
      vec = none ∨ ∃ v, vec = some v ∧ v.len ≤ index) ∧
    (vec_swap_remove vec index = none ↔
      vec = none ∨ ∃ v, vec = some v ∧ v.len ≤ index) := by
  cases vec with
  | none =>
    refine ⟨?_, ?_, ?_⟩ <;>
      simp [vec_get, vec_remove, vec_swap_remove, vec_validate_idx]
  | some v =>
    by_cases hi : index < v.len
    · refine ⟨?_, ?_, ?_⟩ <;>
        simp [vec_get, vec_remove, vec_swap_remove, vec_validate_idx, hi,
          Nat.not_le.mpr hi]
    · refine ⟨?_, ?_, ?_⟩ <;>
        simp [vec_get, vec_remove, vec_swap_remove, vec_validate_idx, hi,
          Nat.not_lt.mp hi]

/-- Witness for C5 at `index = len`: `vec_get` on a one-element buffer at
index 1 aborts, and at index 0 returns a value. -/
theorem indexing_abort_iff_witness :
    vec_get (some ⟨[7], 1, 1, 1⟩) 1 = none ∧
      vec_get (some ⟨[7], 1, 1, 1⟩) 0 ≠ none := by
  constructor
  · exact (indexing_abort_iff (some ⟨[7], 1, 1, 1⟩) 1).1.mpr
      (Or.inr ⟨⟨[7], 1, 1, 1⟩, rfl, by decide⟩)
  · intro hnone
    rcases (indexing_abort_iff (some ⟨[7], 1, 1, 1⟩) 0).1.mp hnone with
      h | ⟨v, hv, hle⟩
    · cases h
    · cases hv
      exact absurd hle (by decide)

theorem removeUnchecked_bytes (v : vector) (i : Nat)
    (hi : i < v.len) (hlc : v.len ≤ v.capacity)
    (hlen : v.inner.length = v.capacity * v.elem_size)
    (hsz : v.capacity * v.elem_size < USZ) :
    (removeUnchecked v i).inner.length = v.inner.length ∧
    (∀ b, b < i * v.elem_size →
      (removeUnchecked v i).inner[b]? = v.inner[b]?) ∧
    (∀ b, i * v.elem_size ≤ b → b < (v.len - 1) * v.elem_size →
      (removeUnchecked v i).inner[b]? = v.inner[b + v.elem_size]?) := by
  have e1 : (i + 1) * v.elem_size = i * v.elem_size + v.elem_size :=
    Nat.succ_mul i v.elem_size
  have elen : v.len * v.elem_size ≤ v.capacity * v.elem_size :=
    Nat.mul_le_mul_right _ hlc
  have el1 : (v.len - 1) * v.elem_size =
      v.len * v.elem_size - v.elem_size := by
    rw [Nat.sub_mul, Nat.one_mul]
  have enb : (v.len - 1 - i) * v.elem_size =
      v.len * v.elem_size - v.elem_size - i * v.elem_size := by
    rw [Nat.sub_mul, Nat.sub_mul, Nat.one_mul]
  have eies : i * v.elem_size + v.elem_size ≤ v.len * v.elem_size := by
    have h2 : (i + 1) * v.elem_size ≤ v.len * v.elem_size :=
      Nat.mul_le_mul_right _ hi
    rw [Nat.succ_mul] at h2
    exact h2
  have hmod : (v.len - 1 - i) * v.elem_size % USZ =
      (v.len - 1 - i) * v.elem_size := by
    have hle : (v.len - 1 - i) * v.elem_size ≤ v.len * v.elem_size :=
      Nat.mul_le_mul_right _ (by omega)
    exact Nat.mod_eq_of_lt (by omega)
  by_cases hil : i = v.len - 1
  · have hmt : ∀ b, i * v.elem_size ≤ b →
        b < (v.len - 1) * v.elem_size → False := by
      intro b hb1 hb2
      rw [hil] at hb1
      omega
    have hunf : removeUnchecked v i = { v with len := v.len - 1 } := by
      simp only [removeUnchecked, if_neg (not_not_intro hil)]
    rw [hunf]
    exact ⟨rfl, fun b _ => rfl, fun b hb1 hb2 => (hmt b hb1 hb2).elim⟩
  · simp only [removeUnchecked, VEC_ADDR_OF, if_pos hil, hmod]
    have hblock : ((v.inner.drop ((i + 1) * v.elem_size)).take
        ((v.len - 1 - i) * v.elem_size)).length =
        (v.len - 1 - i) * v.elem_size := by
      rw [List.length_take, List.length_drop]
      exact Nat.min_eq_left (by omega)
    have hoff : i * v.elem_size +
        ((v.inner.drop ((i + 1) * v.elem_size)).take
          ((v.len - 1 - i) * v.elem_size)).length ≤ v.inner.length := by
      rw [hblock]
      omega
    refine ⟨length_writeBytes _ _ _ hoff, ?_, ?_⟩
    · intro b hb
      rw [getElem?_writeBytes _ _ _ _ hoff, if_pos hb]
    · intro b hb1 hb2
      rw [getElem?_writeBytes _ _ _ _ hoff, if_neg (by omega),
        if_pos (by omega), List.getElem?_take, if_pos (by omega),
        List.getElem?_drop]
      have hidx : (i + 1) * v.elem_size + (b - i * v.elem_size) =
          b + v.elem_size := by
        omega
      rw [hidx]

theorem swapRemoveUnchecked_bytes (v : vector) (i : Nat)
    (hi : i < v.len) (hlc : v.len ≤ v.capacity)
    (hlen : v.inner.length = v.capacity * v.elem_size)
    (hsz : v.capacity * v.elem_size < USZ) :
    (swapRemoveUnchecked v i).inner.length = v.inner.length ∧
    (∀ b, b < i * v.elem_size →
      (swapRemoveUnchecked v i).inner[b]? = v.inner[b]?) ∧
    (∀ b, b < v.elem_size →
      (swapRemoveUnchecked v i).inner[i * v.elem_size + b]? =
        v.inner[(v.len - 1) * v.elem_size + b]?) := by
  have elen : v.len * v.elem_size ≤ v.capacity * v.elem_size :=
    Nat.mul_le_mul_right _ hlc
  have el1 : (v.len - 1) * v.elem_size =
      v.len * v.elem_size - v.elem_size := by
    rw [Nat.sub_mul, Nat.one_mul]
  have eies : i * v.elem_size + v.elem_size ≤ v.len * v.elem_size := by
    have h2 : (i + 1) * v.elem_size ≤ v.len * v.elem_size :=
      Nat.mul_le_mul_right _ hi
    rw [Nat.succ_mul] at h2
    exact h2
  have hles : v.elem_size ≤ v.len * v.elem_size := by
    have h2 : 1 * v.elem_size ≤ v.len * v.elem_size :=
      Nat.mul_le_mul_right _ (by omega)
    rw [Nat.one_mul] at h2
    exact h2
  by_cases hl2 : v.len ≥ 2
  · simp only [swapRemoveUnchecked, VEC_ADDR_OF, if_pos hl2]
    have hbl : (readSlot v (v.len - 1)).length = v.elem_size := by
      simp only [readSlot, VEC_ADDR_OF]
      rw [List.length_take, List.length_drop]
      exact Nat.min_eq_left (by omega)
    have hoff : i * v.elem_size + (readSlot v (v.len - 1)).length ≤
        v.inner.length := by
      rw [hbl]
      omega
    refine ⟨length_writeBytes _ _ _ hoff, ?_, ?_⟩
    · intro b hb
      rw [getElem?_writeBytes _ _ _ _ hoff, if_pos hb]
    · intro b hb
      rw [getElem?_writeBytes _ _ _ _ hoff, if_neg (by omega),
        if_pos (by omega)]
      have hidx : i * v.elem_size + b - i * v.elem_size = b := by
        omega
      rw [hidx, getElem?_readSlot, if_pos hb]
  · have hlen1 : v.len = 1 := by omega
    have hi0 : i = 0 := by omega
    subst hi0
    have hunf : swapRemoveUnchecked v 0 = { v with len := v.len - 1 } := by
      simp only [swapRemoveUnchecked, if_neg hl2]
    rw [hunf]
    refine ⟨rfl, fun b hb => rfl, ?_⟩
    intro b hb
    rw [hlen1]

/-- C6: on a valid index `i < len`, `vec_remove` shifts every slot after
`i` one slot to the left (so slot `j` afterwards holds the old slot
`j + 1` for `i ≤ j < len - 1` and slots below `i` are untouched,
preserving the relative order of the surviving elements) and decrements
`len` by one; `vec_swap_remove` leaves slot `i` holding the former last
slot's bytes, keeps the slots below `i`, and decrements `len` by exactly
one; both hold for every valid `i`, including `i = len - 1` where they
reduce to a plain decrement. -/
theorem vec_remove_swap_remove_spec (v : vector) (i : Nat)
    (hi : i < v.len) (hlc : v.len ≤ v.capacity)
    (hlen : v.inner.length = v.capacity * v.elem_size)
    (hsz : v.capacity * v.elem_size < USZ) :
    (∀ v', vec_remove (some v) i = some v' →
      v'.len = v.len - 1 ∧ v'.elem_size = v.elem_size ∧
      (∀ j, j < i → readSlot v' j = readSlot v j) ∧
      (∀ j, i ≤ j → j + 1 < v.len → readSlot v' j = readSlot v (j + 1))) ∧
    (∀ v', vec_swap_remove (some v) i = some v' →
      v'.len = v.len - 1 ∧ v'.elem_size = v.elem_size ∧
      readSlot v' i = readSlot v (v.len - 1) ∧
      (∀ j, j < i → readSlot v' j = readSlot v j)) := by
  have hval : vec_validate_idx (some v) i = true := by
    simp [vec_validate_idx, hi]
  constructor
  · intro v' h
    rw [vec_remove, if_pos hval] at h
    have hv' : v' = removeUnchecked v i := by
      injection h with h2
      exact h2.symm
    subst hv'
    have hf := removeUnchecked_fields v i
    have hb := removeUnchecked_bytes v i hi hlc hlen hsz
    refine ⟨hf.1, hf.2.2, ?_, ?_⟩
    · intro j hj
      refine readSlot_ext_bytes v _ j j hf.2.2 ?_
      intro b hbes
      apply hb.2.1
      have h2 : (j + 1) * v.elem_size ≤ i * v.elem_size :=
        Nat.mul_le_mul_right _ hj
      rw [Nat.succ_mul] at h2
      omega
    · intro j hj1 hj2
      refine readSlot_ext_bytes v _ j (j + 1) hf.2.2 ?_
      intro b hbes
      have e2 : (j + 1) * v.elem_size = j * v.elem_size + v.elem_size :=
        Nat.succ_mul j v.elem_size
      have h3 : i * v.elem_size ≤ j * v.elem_size :=
        Nat.mul_le_mul_right _ hj1
      have h4 : (j + 1) * v.elem_size ≤ (v.len - 1) * v.elem_size :=
        Nat.mul_le_mul_right _ (by omega)
      rw [hb.2.2 (j * v.elem_size + b) (by omega) (by omega)]
      have hidx : j * v.elem_size + b + v.elem_size =
          (j + 1) * v.elem_size + b := by
        omega
      rw [hidx]
  · intro v' h
    rw [vec_swap_remove, if_pos hval] at h
    have hv' : v' = swapRemoveUnchecked v i := by
      injection h with h2
      exact h2.symm
    subst hv'
    have hf := swapRemoveUnchecked_fields v i
    have hb := swapRemoveUnchecked_bytes v i hi hlc hlen hsz
    refine ⟨hf.1, hf.2.2, ?_, ?_⟩
    · refine readSlot_ext_bytes v _ i (v.len - 1) hf.2.2 ?_
      intro b hbes
      exact hb.2.2 b hbes
    · intro j hj
      refine readSlot_ext_bytes v _ j j hf.2.2 ?_
      intro b hbes
      apply hb.2.1
      have h2 : (j + 1) * v.elem_size ≤ i * v.elem_size :=
        Nat.mul_le_mul_right _ hj
      rw [Nat.succ_mul] at h2
      omega

/-- Witness for C6: removing index 0 from the two-byte buffer `[7, 9]`
shifts `9` into slot 0, and swap-removing index 0 of `[7, 9]` puts the
last element `9` into slot 0; both drop the length from 2 to 1. -/
theorem vec_remove_swap_remove_spec_witness :
    readSlot (⟨[9, 9], 2, 1, 1⟩ : vector) 0 =
      readSlot ⟨[7, 9], 2, 2, 1⟩ 1 ∧
    (⟨[9, 9], 2, 1, 1⟩ : vector).len = 2 - 1 ∧
    readSlot (⟨[9, 9], 2, 1, 1⟩ : vector) 0 =
      readSlot ⟨[7, 9], 2, 2, 1⟩ (2 - 1) := by
  have h := vec_remove_swap_remove_spec ⟨[7, 9], 2, 2, 1⟩ 0 (by decide)
    (by decide) (by decide) (by decide)
  have h1 := h.1 ⟨[9, 9], 2, 1, 1⟩ (by decide)
  have h2 := h.2 ⟨[9, 9], 2, 1, 1⟩ (by decide)
  exact ⟨h1.2.2.2 0 (by decide) (by decide), h2.1, h2.2.2.1⟩

/-- C7: a successful push immediately followed by pop (with the copy
allocation succeeding) returns an owned copy whose bytes equal the pushed
element's bytes and restores the original length; pop on an empty buffer
returns the explicit empty result without mutating any state; and when
the allocation for the popped copy fails, pop returns failure without
decrementing the length, so no element is lost. -/
theorem vec_push_pop_spec (v : vector) (element : List Nat)
    (allocOk : Bool)
    (hlc : v.len ≤ v.capacity) (hcap : v.capacity < USZ)
    (hlen : v.inner.length = v.capacity * v.elem_size)
    (helem : element.length = v.elem_size) :
    (∀ v' r, vec_push v element allocOk = (v', some r) →
      vec_pop v' true = ({ v' with len := v.len }, some element)) ∧
    (v.len = 0 → vec_pop v allocOk = (v, none)) ∧
    vec_pop v false = (v, none) := by
  refine ⟨?_, ?_, ?_⟩
  · intro v' r h
    have hp := vec_push_success v element allocOk hlc hcap hlen helem v' r h
    rw [vec_pop, if_neg (by omega), if_neg (by simp)]
    have h1 : v'.len - 1 = v.len := by omega
    rw [h1, hp.2.2.2.1]
  · intro h0
    rw [vec_pop, if_pos h0]
  · rw [vec_pop]
    split
    · rfl
    · rw [if_pos rfl]

/-- Witness for C7: pushing byte `9` onto the empty one-slot buffer and
popping it returns `[9]` and length 0 again; popping the empty buffer
yields the empty result. -/
theorem vec_push_pop_spec_witness :
    vec_pop ⟨[9], 1, 1, 1⟩ true = (⟨[9], 1, 0, 1⟩, some [9]) ∧
    vec_pop ⟨[0], 1, 0, 1⟩ true = (⟨[0], 1, 0, 1⟩, none) := by
  have h := vec_push_pop_spec ⟨[0], 1, 0, 1⟩ [9] true (by decide)
    (by decide) (by decide) (by decide)
  exact ⟨h.1 ⟨[9], 1, 1, 1⟩ 0 (by decide), h.2.1 rfl⟩

/-- C10: `vec_pop`, `vec_remove`, `vec_swap_remove` and `vec_clear` never
change `capacity` or `elem_size` and never replace or reallocate the
backing store (none of them calls an allocator on the store; the byte
list keeps its exact length, and for pop and clear it is untouched);
they modify only `len` and, for remove and swap-remove, bytes of slots at
or above the removed index — every byte below `index * elem_size` is
preserved. -/
theorem frame_spec (v : vector) :
    (∀ allocOk, (vec_pop v allocOk).1.capacity = v.capacity ∧
      (vec_pop v allocOk).1.elem_size = v.elem_size ∧
      (vec_pop v allocOk).1.inner = v.inner) ∧
    ((vec_clear v).capacity = v.capacity ∧
      (vec_clear v).elem_size = v.elem_size ∧
      (vec_clear v).inner = v.inner) ∧
    (∀ i v', v.len ≤ v.capacity →
      v.inner.length = v.capacity * v.elem_size →
      v.capacity * v.elem_size < USZ →
      vec_remove (some v) i = some v' →
      v'.capacity = v.capacity ∧ v'.elem_size = v.elem_size ∧
      v'.inner.length = v.inner.length ∧
      (∀ b, b < i * v.elem_size → v'.inner[b]? = v.inner[b]?)) ∧
    (∀ i v', v.len ≤ v.capacity →
      v.inner.length = v.capacity * v.elem_size →
      v.capacity * v.elem_size < USZ →
      vec_swap_remove (some v) i = some v' →
      v'.capacity = v.capacity ∧ v'.elem_size = v.elem_size ∧
      v'.inner.length = v.inner.length ∧
      (∀ b, b < i * v.elem_size → v'.inner[b]? = v.inner[b]?)) := by
  refine ⟨?_, ⟨rfl, rfl, rfl⟩, ?_, ?_⟩
  · intro allocOk
    rw [vec_pop]
    split
    · exact ⟨rfl, rfl, rfl⟩
    · split
      · exact ⟨rfl, rfl, rfl⟩
      · exact ⟨rfl, rfl, rfl⟩
  · intro i v' hlc hlen hsz h
    have hi : i < v.len := by
      by_cases hval : vec_validate_idx (some v) i = true
      · simpa [vec_validate_idx] using hval
      · rw [vec_remove, if_neg hval] at h
        cases h
    have hval : vec_validate_idx (some v) i = true := by
      simp [vec_validate_idx, hi]
    rw [vec_remove, if_pos hval] at h
    have hv' : v' = removeUnchecked v i := by
      injection h with h2
      exact h2.symm
    subst hv'
    have hf := removeUnchecked_fields v i
    have hb := removeUnchecked_bytes v i hi hlc hlen hsz
    exact ⟨hf.2.1, hf.2.2, hb.1, hb.2.1⟩
  · intro i v' hlc hlen hsz h
    have hi : i < v.len := by
      by_cases hval : vec_validate_idx (some v) i = true
      · simpa [vec_validate_idx] using hval
      · rw [vec_swap_remove, if_neg hval] at h
        cases h
    have hval : vec_validate_idx (some v) i = true := by
      simp [vec_validate_idx, hi]
    rw [vec_swap_remove, if_pos hval] at h
    have hv' : v' = swapRemoveUnchecked v i := by
      injection h with h2
      exact h2.symm
    subst hv'
    have hf := swapRemoveUnchecked_fields v i
    have hb := swapRemoveUnchecked_bytes v i hi hlc hlen hsz
    exact ⟨hf.2.1, hf.2.2, hb.1, hb.2.1⟩

/-- Witness for C10: swap-removing index 0 from `[7, 9]` keeps capacity
2, element size 1 and the two-byte store length. -/
theorem frame_spec_witness :
    (⟨[9, 9], 2, 1, 1⟩ : vector).capacity = 2 ∧
    (⟨[9, 9], 2, 1, 1⟩ : vector).elem_size = 1 ∧
    (⟨[9, 9], 2, 1, 1⟩ : vector).inner.length =
      (⟨[7, 9], 2, 2, 1⟩ : vector).inner.length := by
  have h := (frame_spec ⟨[7, 9], 2, 2, 1⟩).2.2.2 0 ⟨[9, 9], 2, 1, 1⟩
    (by decide) (by decide) (by decide) (by decide)
  exact ⟨h.1, h.2.1, h.2.2.1⟩

/-- C8: on a byte buffer (`elem_size = 1`), `vec_to_str` resizes the
buffer to `len + 1` slots, writes a terminating zero byte at the new
final slot and leaks the storage, yielding the buffer's `len` element
bytes followed by a terminating zero byte; `vec_clone_str` yields an
equal byte string; it never writes to the source buffer (in this
embedding it is a pure function of it, returning no modified state). -/
theorem bytestring_spec (v : vector) (hes : v.elem_size = 1)
    (hlc : v.len ≤ v.capacity)
    (hlen : v.inner.length = v.capacity * v.elem_size)
    (hsz : v.len + 1 < USZ) :
    vec_to_str v true = v.inner.take v.len ++ [0] ∧
    vec_clone_str (some v) true =
      some (some (v.inner.take v.len ++ [0])) := by
  have hlen1 : v.inner.length = v.capacity := by
    rw [hlen, hes, Nat.mul_one]
  constructor
  · simp only [vec_to_str, vec_leak]
    have hm : (v.len + 1) % USZ = v.len + 1 := Nat.mod_eq_of_lt hsz
    rw [hm]
    have hr : (v.len + 1) * v.elem_size < USZ := by
      rw [hes, Nat.mul_one]
      exact hsz
    rw [vec_resize_success v (v.len + 1) true rfl hr]
    show writeBytes (v.inner.take ((v.len + 1) * v.elem_size) ++
        List.replicate ((v.len + 1) * v.elem_size - v.inner.length) 0)
        (v.len) [0] = v.inner.take v.len ++ [0]
    rw [hes, Nat.mul_one]
    have h01 : ([0] : List Nat).length = 1 := rfl
    have htlen : (v.inner.take (v.len + 1) ++
        List.replicate (v.len + 1 - v.inner.length) 0).length =
        v.len + 1 := by
      rw [List.length_append, List.length_take, List.length_replicate]
      omega
    have hoff : v.len + ([0] : List Nat).length ≤
        (v.inner.take (v.len + 1) ++
          List.replicate (v.len + 1 - v.inner.length) 0).length := by
      rw [h01, htlen]
    have httk : (v.inner.take v.len).length = v.len := by
      rw [List.length_take]
      omega
    apply List.ext_getElem?
    intro k
    rw [getElem?_writeBytes _ _ _ _ hoff, h01]
    by_cases hk : k < v.len
    · rw [if_pos hk]
      have hL : (v.inner.take (v.len + 1) ++
          List.replicate (v.len + 1 - v.inner.length) 0)[k]? =
          v.inner[k]? := by
        rw [List.getElem?_append_left
            (by rw [List.length_take]; omega),
          List.getElem?_take, if_pos (by omega)]
      have hR : (v.inner.take v.len ++ [0])[k]? = v.inner[k]? := by
        rw [List.getElem?_append_left (by rw [httk]; omega),
          List.getElem?_take, if_pos hk]
      rw [hL, hR]
    · by_cases hk2 : k < v.len + 1
      · have hkk : k = v.len := by omega
        subst hkk
        rw [if_neg hk, if_pos hk2,
          List.getElem?_append_right (le_of_eq httk), httk]
      · rw [if_neg hk, if_neg hk2]
        have hnone1 : (v.inner.take (v.len + 1) ++
            List.replicate (v.len + 1 - v.inner.length) 0)[k]? = none :=
          List.getElem?_eq_none (by rw [htlen]; omega)
        have hnone2 : (v.inner.take v.len ++ [0])[k]? = none :=
          List.getElem?_eq_none
            (by rw [List.length_append, httk, h01]; omega)
        rw [hnone1, hnone2]
  · simp [vec_clone_str]

/-- Witness for C8: the byte buffer holding exactly `"abc"` (no prior
terminator) converts destructively to the four owned bytes
`['a', 'b', 'c', 0]`, and the non-destructive copy yields an equal
result. -/
theorem bytestring_spec_witness :
    vec_to_str ⟨[97, 98, 99], 3, 3, 1⟩ true = [97, 98, 99, 0] ∧
    vec_clone_str (some ⟨[97, 98, 99], 3, 3, 1⟩) true =
      some (some [97, 98, 99, 0]) := by
  have h := bytestring_spec ⟨[97, 98, 99], 3, 3, 1⟩ (by decide)
    (by decide) (by decide) (by decide)
  exact ⟨h.1.trans (by decide), h.2.trans (by decide)⟩

/-- C9 (code bug): the claim, the spec and the C comment on
`vec_clone_str` all promise that a NULL handle makes the function return
NULL (absent) without terminating the process, but the code executes
`assert(vec != NULL)` and aborts on a NULL handle (the outer `none` of
the embedding: no value is returned).  Only the allocation-failure half
behaves as claimed: the function returns NULL (`some none`) and the
source buffer is untouched. -/
theorem vec_clone_str_null_aborts :
    vec_clone_str none true = none ∧ vec_clone_str none false = none ∧
    (∀ v, vec_clone_str (some v) false = some none) :=
  ⟨rfl, rfl, fun _ => rfl⟩

end Vec
